import Mathlib

/-!
# Verification of the go-cache-cluster LRU/TTL cache engine

Shallow embedding of `internal/cache/cache.go` (the Cache Engine: an LRU
cache with per-entry TTL, lazy expiration on `Get`, and an active
background sweep `evictExpired`), together with the `Delete` handler of the
gRPC façade in `internal/server/server.go`.

Modelling choices:
* Go's `time.Time` is modelled as `Nat` (an abstract instant); the zero
  `time.Time` used to mean "never expires" is modelled as `Option Nat` with
  `none` for "never".  `time.Now()` is impure in Go, so every operation
  takes the current instant `now` as an explicit argument.
* `ttl` is a `time.Duration`, i.e. a signed integer: modelled as `Int`.
* A `*list.Element` of `container/list` is a stable pointer identity; it is
  modelled as a `Nat` identifier allocated from a counter `nextId`.  The
  recency list `ll` is a list of `(id, entry)` pairs, front first; the Go
  map `items : map[string]*list.Element` is an association list from key to
  element identifier.
* `Get`'s Go result `([]byte, bool)` is modelled as `Option (List Nat)`:
  `some v` for `(v, true)` and `none` for `(nil, false)`.
-/

/-- The `entry` struct of `internal/cache/cache.go`: key, value bytes and an
optional absolute expiry instant (`none` = zero `time.Time` = never). -/
structure entry where
  key : String
  value : List Nat
  expiresAt : Option Nat
deriving DecidableEq, Repr

/-- `(*entry).isExpired`: false when `expiresAt` is the zero time, else
`time.Now().After(expiresAt)`, i.e. strictly `expiresAt < now`. -/
def entry.isExpired (e : entry) (now : Nat) : Bool :=
  match e.expiresAt with
  | none => false
  | some t => t < now

/-- The `Cache` struct: capacity, the recency list `ll` (front = most
recently used), the index map `items`, and the allocator for element
identities (standing in for pointer freshness). -/
structure Cache where
  capacity : Nat
  ll : List (Nat × entry)
  items : List (String × Nat)
  nextId : Nat
deriving DecidableEq, Repr

/-- Go map read `m[k]`: the identifier bound to key `k`, if any. -/
def mapGet (m : List (String × Nat)) (k : String) : Option Nat :=
  (m.find? (fun q => q.1 == k)).map Prod.snd

/-- Go map `delete(m, k)`. -/
def mapDelete (m : List (String × Nat)) (k : String) : List (String × Nat) :=
  m.filter (fun q => q.1 != k)

/-- Go map assignment `m[k] = i` (replaces any previous binding). -/
def mapInsert (m : List (String × Nat)) (k : String) (i : Nat) : List (String × Nat) :=
  (k, i) :: mapDelete m k

/-- Dereference an element identifier in the recency list. -/
def llFind (ll : List (Nat × entry)) (i : Nat) : Option entry :=
  (ll.find? (fun q => q.1 == i)).map Prod.snd

/-- `(*list.List).Remove` of the element with identity `i`. -/
def llRemove (ll : List (Nat × entry)) (i : Nat) : List (Nat × entry) :=
  ll.filter (fun q => q.1 != i)

/-- `(*list.List).MoveToFront` of the element with identity `i`
(a no-op when the element is not in the list, as in `container/list`). -/
def llMoveToFront (ll : List (Nat × entry)) (i : Nat) : List (Nat × entry) :=
  match llFind ll i with
  | none => ll
  | some e => (i, e) :: llRemove ll i

/-- In-place mutation through the element pointer: replace the value and
expiry of the entry held by element `i` (`ent.value = value;
ent.expiresAt = expiresAt`). -/
def llUpdate (ll : List (Nat × entry)) (i : Nat) (v : List Nat) (t : Option Nat) :
    List (Nat × entry) :=
  ll.map (fun q => if q.1 == i then (q.1, { q.2 with value := v, expiresAt := t }) else q)

/-- `New(capacity)`: requested capacities ≤ 0 are coerced to 1; the cache
starts empty.  (The janitor goroutine it spawns is the concern of
`Cache.evictExpired` below, invoked once per tick.) -/
def New (capacity : Int) : Cache :=
  { capacity := (if capacity ≤ 0 then 1 else capacity).toNat
    ll := []
    items := []
    nextId := 0 }

/-- `(*Cache).Get`: index lookup; on an expired entry, remove it from both
structures and report not-found (lazy expiration); on a live entry, move it
to the front and return its value. -/
def Cache.Get (c : Cache) (now : Nat) (key : String) : Option (List Nat) × Cache :=
  match mapGet c.items key with
  | none => (none, c)
  | some i =>
    match llFind c.ll i with
    | none => (none, c)
    | some e =>
      if e.isExpired now then
        (none, { c with ll := llRemove c.ll i, items := mapDelete c.items e.key })
      else
        (some e.value, { c with ll := llMoveToFront c.ll i })

/-- The absolute expiry computed at the top of `Set`: `time.Now().Add(ttl)`
when `ttl > 0`, else the zero time ("never", modelled as `none`). -/
def expiryOf (now : Nat) (ttl : Int) : Option Nat :=
  if 0 < ttl then some (now + ttl.toNat) else none

/-- `(*Cache).Set`: compute the absolute expiry; update in place and move to
front when the key is present, otherwise push a fresh entry at the front and
index it; finally, if the list has outgrown the capacity, drop the back
element and its index key. -/
def Cache.Set (c : Cache) (now : Nat) (key : String) (value : List Nat) (ttl : Int) : Cache :=
  let c1 : Cache :=
    match mapGet c.items key with
    | some i =>
        { c with ll := llUpdate (llMoveToFront c.ll i) i value (expiryOf now ttl) }
    | none =>
        { c with
          ll := (c.nextId, { key := key, value := value, expiresAt := expiryOf now ttl }) :: c.ll
          items := mapInsert c.items key c.nextId
          nextId := c.nextId + 1 }
  if 0 < c1.capacity ∧ c1.capacity < c1.ll.length then
    match c1.ll.getLast? with
    | some last => { c1 with ll := llRemove c1.ll last.1, items := mapDelete c1.items last.2.key }
    | none => c1
  else c1

/-- `(*Cache).evictExpired`, one tick of the janitor: scan the list front to
back collecting the expired elements, then remove each from the list and
delete its key from the index. -/
def Cache.evictExpired (c : Cache) (now : Nat) : Cache :=
  let toRemove := c.ll.filter (fun q => q.2.isExpired now)
  { c with
    ll := toRemove.foldl (fun l q => llRemove l q.1) c.ll
    items := toRemove.foldl (fun m q => mapDelete m q.2.key) c.items }

/-- `(*Cache).Len`: the recency list's length. -/
def Cache.Len (c : Cache) : Nat := c.ll.length

/-- Modelled from the spec: the Cache Engine's `Delete(key)` capability is
described in the spec ("removes the key from both Index and Recency Order
if present; no-op otherwise") and declared in the project plan, but no such
method appears in `internal/cache/cache.go`. -/
def Cache.Delete (c : Cache) (key : String) : Cache :=
  match mapGet c.items key with
  | none => c
  | some i => { c with ll := llRemove c.ll i, items := mapDelete c.items key }

/-- gRPC status codes used by the façade. -/
inductive GrpcCode where
  | ok
  | notFound
  | unimplemented
deriving DecidableEq, Repr

/-- `server.Delete` from `internal/server/server.go`: unconditionally
returns `status.Error(codes.Unimplemented, "Delete is not yet implemented")`
without touching the cache. -/
def serverDelete (_key : String) : Except GrpcCode Unit :=
  Except.error GrpcCode.unimplemented

/-- One caller-visible mutation of the cache: a `Get`, a `Set`, or one tick
of the background sweep, each at some instant. -/
inductive Op where
  | get (now : Nat) (key : String)
  | set (now : Nat) (key : String) (value : List Nat) (ttl : Int)
  | sweep (now : Nat)

/-- Apply one operation (keeping only the state for `Get`). -/
def applyOp (c : Cache) : Op → Cache
  | Op.get now k => (c.Get now k).2
  | Op.set now k v t => c.Set now k v t
  | Op.sweep now => c.evictExpired now

/-- Run a sequence of operations from a starting state. -/
def runOps (c : Cache) (ops : List Op) : Cache :=
  ops.foldl applyOp c

/-! ## Basic facts about the map and list primitives -/

theorem mapGet_eq_none {m : List (String × Nat)} {k : String} :
    mapGet m k = none ↔ ∀ q ∈ m, q.1 ≠ k := by
  unfold mapGet
  rw [Option.map_eq_none', List.find?_eq_none]
  constructor
  · intro h q hq
    simpa using h q hq
  · intro h q hq
    simpa using h q hq

theorem mapGet_mem {m : List (String × Nat)} {k : String} {i : Nat}
    (h : mapGet m k = some i) : (k, i) ∈ m := by
  unfold mapGet at h
  rcases Option.map_eq_some'.mp h with ⟨q, hf, hq2⟩
  have hq : q ∈ m := List.mem_of_find?_eq_some hf
  have hk : q.1 = k := by
    have := List.find?_some hf
    simpa using this
  have : q = (k, i) := by
    cases q; simp_all
  rwa [this] at hq

theorem mapGet_of_mem {m : List (String × Nat)} {k : String} {i : Nat}
    (hnd : (m.map Prod.fst).Nodup) (h : (k, i) ∈ m) : mapGet m k = some i := by
  induction m with
  | nil => cases h
  | cons a rest ih =>
    simp only [List.map_cons, List.nodup_cons] at hnd
    rcases List.mem_cons.mp h with heq | hmem
    · subst heq
      simp [mapGet, List.find?_cons]
    · have hne : a.1 ≠ k := by
        intro hk
        exact hnd.1 (hk ▸ (List.mem_map.mpr ⟨(k, i), hmem, rfl⟩))
      have ihv := ih hnd.2 hmem
      unfold mapGet at ihv ⊢
      have hb : (a.1 == k) = false := by simp [hne]
      rw [List.find?_cons, hb]
      exact ihv

theorem mem_mapDelete {m : List (String × Nat)} {k : String} {q : String × Nat} :
    q ∈ mapDelete m k ↔ q ∈ m ∧ q.1 ≠ k := by
  simp [mapDelete, List.mem_filter]

theorem mapDelete_sublist (m : List (String × Nat)) (k : String) :
    (mapDelete m k).Sublist m :=
  List.filter_sublist m

theorem mem_mapInsert {m : List (String × Nat)} {k : String} {i : Nat} {q : String × Nat} :
    q ∈ mapInsert m k i ↔ q = (k, i) ∨ (q ∈ m ∧ q.1 ≠ k) := by
  simp [mapInsert, mem_mapDelete]

theorem mapInsert_fst_nodup {m : List (String × Nat)} {k : String} {i : Nat}
    (hnd : (m.map Prod.fst).Nodup) : ((mapInsert m k i).map Prod.fst).Nodup := by
  simp only [mapInsert, List.map_cons, List.nodup_cons]
  refine ⟨?_, ((mapDelete_sublist m k).map Prod.fst).nodup hnd⟩
  intro hk
  rcases List.mem_map.mp hk with ⟨q, hq, hq1⟩
  exact (mem_mapDelete.mp hq).2 hq1

theorem mem_llRemove {ll : List (Nat × entry)} {i : Nat} {q : Nat × entry} :
    q ∈ llRemove ll i ↔ q ∈ ll ∧ q.1 ≠ i := by
  simp [llRemove, List.mem_filter]

theorem llRemove_sublist (ll : List (Nat × entry)) (i : Nat) :
    (llRemove ll i).Sublist ll :=
  List.filter_sublist ll

theorem llRemove_eq_self {ll : List (Nat × entry)} {i : Nat}
    (h : ∀ q ∈ ll, q.1 ≠ i) : llRemove ll i = ll := by
  unfold llRemove
  rw [List.filter_eq_self]
  intro q hq
  simpa using h q hq

theorem llFind_eq_none {ll : List (Nat × entry)} {i : Nat} :
    llFind ll i = none ↔ ∀ q ∈ ll, q.1 ≠ i := by
  unfold llFind
  rw [Option.map_eq_none', List.find?_eq_none]
  constructor
  · intro h q hq
    simpa using h q hq
  · intro h q hq
    simpa using h q hq

theorem llFind_mem {ll : List (Nat × entry)} {i : Nat} {e : entry}
    (h : llFind ll i = some e) : (i, e) ∈ ll := by
  unfold llFind at h
  rcases Option.map_eq_some'.mp h with ⟨q, hf, hq2⟩
  have hq : q ∈ ll := List.mem_of_find?_eq_some hf
  have hk : q.1 = i := by
    have := List.find?_some hf
    simpa using this
  have : q = (i, e) := by cases q; simp_all
  rwa [this] at hq

theorem llFind_of_mem {ll : List (Nat × entry)} {i : Nat} {e : entry}
    (hnd : (ll.map Prod.fst).Nodup) (h : (i, e) ∈ ll) : llFind ll i = some e := by
  induction ll with
  | nil => cases h
  | cons a rest ih =>
    simp only [List.map_cons, List.nodup_cons] at hnd
    rcases List.mem_cons.mp h with heq | hmem
    · subst heq
      simp [llFind, List.find?_cons]
    · have hne : a.1 ≠ i := by
        intro hk
        exact hnd.1 (hk ▸ (List.mem_map.mpr ⟨(i, e), hmem, rfl⟩))
      have ihv := ih hnd.2 hmem
      unfold llFind at ihv ⊢
      have hb : (a.1 == i) = false := by simp [hne]
      rw [List.find?_cons, hb]
      exact ihv

theorem perm_cons_llRemove {ll : List (Nat × entry)} {i : Nat} {e : entry}
    (hnd : (ll.map Prod.fst).Nodup) (h : (i, e) ∈ ll) :
    ll.Perm ((i, e) :: llRemove ll i) := by
  induction ll with
  | nil => cases h
  | cons a rest ih =>
    simp only [List.map_cons, List.nodup_cons] at hnd
    rcases List.mem_cons.mp h with heq | hmem
    · subst heq
      have : llRemove ((i, e) :: rest) i = rest := by
        show List.filter _ _ = _
        simp only [List.filter_cons]
        have hii : (((i, e).1 != i) = true) = False := by simp
        simp only [hii, if_false]
        rw [List.filter_eq_self]
        intro q hq
        simp only [bne_iff_ne, ne_eq, decide_eq_true_eq]
        intro hq1
        exact hnd.1 (hq1 ▸ (List.mem_map.mpr ⟨q, hq, rfl⟩))
      rw [this]
    · have hne : a.1 ≠ i := by
        intro hk
        exact hnd.1 (hk ▸ (List.mem_map.mpr ⟨(i, e), hmem, rfl⟩))
      have hrm : llRemove (a :: rest) i = a :: llRemove rest i := by
        show List.filter _ _ = _
        simp only [List.filter_cons]
        have : ((a.1 != i) = true) = True := by simp [hne]
        simp only [this, if_true]
        rfl
      rw [hrm]
      exact ((ih hnd.2 hmem).cons a).trans (List.Perm.swap _ _ _)

theorem length_llRemove {ll : List (Nat × entry)} {i : Nat} {e : entry}
    (hnd : (ll.map Prod.fst).Nodup) (h : (i, e) ∈ ll) :
    (llRemove ll i).length + 1 = ll.length := by
  have := (perm_cons_llRemove hnd h).length_eq
  simpa [Nat.add_comm] using this.symm

theorem llUpdate_fst (ll : List (Nat × entry)) (i : Nat) (v : List Nat) (t : Option Nat) :
    (llUpdate ll i v t).map Prod.fst = ll.map Prod.fst := by
  unfold llUpdate
  rw [List.map_map]
  apply List.map_congr_left
  intro q _
  by_cases h : q.1 = i <;> simp [h]

theorem llUpdate_eq_self {ll : List (Nat × entry)} {i : Nat} {v : List Nat} {t : Option Nat}
    (h : ∀ q ∈ ll, q.1 ≠ i) : llUpdate ll i v t = ll := by
  unfold llUpdate
  rw [show ll.map _ = ll.map id by
    apply List.map_congr_left
    intro q hq
    simp [h q hq]]
  exact List.map_id ll

theorem llMoveToFront_eq {ll : List (Nat × entry)} {i : Nat} {e : entry}
    (hnd : (ll.map Prod.fst).Nodup) (h : (i, e) ∈ ll) :
    llMoveToFront ll i = (i, e) :: llRemove ll i := by
  unfold llMoveToFront
  rw [llFind_of_mem hnd h]

theorem llUpdate_llMoveToFront {ll : List (Nat × entry)} {i : Nat} {e : entry}
    {v : List Nat} {t : Option Nat}
    (hnd : (ll.map Prod.fst).Nodup) (h : (i, e) ∈ ll) :
    llUpdate (llMoveToFront ll i) i v t
      = (i, { e with value := v, expiresAt := t }) :: llRemove ll i := by
  rw [llMoveToFront_eq hnd h]
  have htail : llUpdate (llRemove ll i) i v t = llRemove ll i :=
    llUpdate_eq_self (fun q hq => (mem_llRemove.mp hq).2)
  unfold llUpdate at htail ⊢
  rw [List.map_cons, htail]
  simp

/-! ## The structural invariant: index and recency list in bijection -/

/-- The bijection invariant tying the index map to the recency list:
element identities and entry keys are duplicate-free, the index binds `k`
to `i` exactly when the list holds element `i` with an entry keyed `k`, and
all identities were allocated below `nextId`. -/
structure CacheInv (c : Cache) : Prop where
  ids_nodup : (c.ll.map Prod.fst).Nodup
  keys_nodup : (c.ll.map (fun q => q.2.key)).Nodup
  items_nodup : (c.items.map Prod.fst).Nodup
  lookup : ∀ k i, (k, i) ∈ c.items ↔ ∃ e, (i, e) ∈ c.ll ∧ e.key = k
  ids_lt : ∀ q ∈ c.ll, q.1 < c.nextId

/-- Full well-formedness: the bijection invariant, a positive (coerced)
capacity, and the occupancy bound. -/
structure CacheWF (c : Cache) : Prop where
  inv : CacheInv c
  cap_pos : 0 < c.capacity
  size_le : c.ll.length ≤ c.capacity

theorem CacheInv.id_inj {c : Cache} (hc : CacheInv c) {q r : Nat × entry}
    (hq : q ∈ c.ll) (hr : r ∈ c.ll) (h : q.1 = r.1) : q = r :=
  List.inj_on_of_nodup_map hc.ids_nodup hq hr h

theorem CacheInv.key_inj {c : Cache} (hc : CacheInv c) {q r : Nat × entry}
    (hq : q ∈ c.ll) (hr : r ∈ c.ll) (h : q.2.key = r.2.key) : q = r :=
  List.inj_on_of_nodup_map hc.keys_nodup hq hr h

theorem CacheInv.absent {c : Cache} {key : String} (hc : CacheInv c)
    (h : mapGet c.items key = none) : ∀ q ∈ c.ll, q.2.key ≠ key := by
  intro q hq hk
  have hm : (key, q.1) ∈ c.items :=
    (hc.lookup key q.1).mpr ⟨q.2, by simpa using hq, hk⟩
  exact mapGet_eq_none.mp h (key, q.1) hm rfl

theorem CacheInv.present {c : Cache} {key : String} {i : Nat} (hc : CacheInv c)
    (h : mapGet c.items key = some i) :
    ∃ e, llFind c.ll i = some e ∧ (i, e) ∈ c.ll ∧ e.key = key := by
  rcases (hc.lookup key i).mp (mapGet_mem h) with ⟨e, he, hk⟩
  exact ⟨e, llFind_of_mem hc.ids_nodup he, he, hk⟩

theorem CacheInv.items_length {c : Cache} (hc : CacheInv c) :
    c.items.length = c.ll.length := by
  have hperm : (c.items.map Prod.fst).Perm (c.ll.map (fun q => q.2.key)) := by
    rw [List.perm_ext_iff_of_nodup hc.items_nodup hc.keys_nodup]
    intro k
    simp only [List.mem_map]
    constructor
    · rintro ⟨q, hq, rfl⟩
      rcases (hc.lookup q.1 q.2).mp (by simpa using hq) with ⟨e, he, hk⟩
      exact ⟨(q.2, e), he, hk⟩
    · rintro ⟨q, hq, rfl⟩
      exact ⟨(q.2.key, q.1), (hc.lookup _ _).mpr ⟨q.2, by simpa using hq, rfl⟩, rfl⟩
  have := hperm.length_eq
  simpa using this

/-- Removing one element from the list together with its key from the index
(the common removal step of `Get`'s lazy expiration, `Set`'s eviction, the
sweep, and `Delete`) preserves the bijection invariant. -/
theorem CacheInv.remove {c : Cache} {i : Nat} {e : entry} (hc : CacheInv c) (h : (i, e) ∈ c.ll) :
    CacheInv { c with ll := llRemove c.ll i, items := mapDelete c.items e.key } where
  ids_nodup := (((llRemove_sublist c.ll i).map Prod.fst).nodup hc.ids_nodup)
  keys_nodup := (((llRemove_sublist c.ll i).map _).nodup hc.keys_nodup)
  items_nodup := (((mapDelete_sublist c.items e.key).map Prod.fst).nodup hc.items_nodup)
  lookup := by
    intro k j
    simp only
    rw [show ((k, j) ∈ mapDelete c.items e.key) = ((k, j) ∈ c.items ∧ k ≠ e.key) from
      propext mem_mapDelete]
    constructor
    · rintro ⟨hkj, hne⟩
      rcases (hc.lookup k j).mp hkj with ⟨e', he', hk⟩
      refine ⟨e', mem_llRemove.mpr ⟨he', ?_⟩, hk⟩
      intro hji
      have : (j, e') = (i, e) := hc.id_inj he' h hji
      apply hne
      rw [← hk]
      exact congrArg (fun q => Prod.snd q |>.key) this
    · rintro ⟨e', he', hk⟩
      rcases mem_llRemove.mp he' with ⟨hmem, hji⟩
      refine ⟨(hc.lookup k j).mpr ⟨e', hmem, hk⟩, ?_⟩
      intro hke
      have : (j, e') = (i, e) := hc.key_inj hmem h (by rw [hk, hke])
      exact hji (congrArg Prod.fst this)
  ids_lt := by
    intro q hq
    exact hc.ids_lt q (mem_llRemove.mp hq).1

/-- The bijection invariant only depends on the list up to permutation. -/
theorem CacheInv.of_perm {c : Cache} (hc : CacheInv c) {l2 : List (Nat × entry)}
    (hp : c.ll.Perm l2) : CacheInv { c with ll := l2 } where
  ids_nodup := ((hp.map Prod.fst).nodup_iff).mp hc.ids_nodup
  keys_nodup := ((hp.map _).nodup_iff).mp hc.keys_nodup
  items_nodup := hc.items_nodup
  lookup := by
    intro k j
    simp only
    rw [hc.lookup k j]
    constructor
    · rintro ⟨e, he, hk⟩
      exact ⟨e, hp.mem_iff.mp he, hk⟩
    · rintro ⟨e, he, hk⟩
      exact ⟨e, hp.mem_iff.mpr he, hk⟩
  ids_lt := by
    intro q hq
    exact hc.ids_lt q (hp.mem_iff.mpr hq)

/-- The in-place update and move-to-front of `Set` on a present key
preserves the bijection invariant (the updated entry keeps its key). -/
theorem CacheInv.update {c : Cache} {i : Nat} {e : entry} {v : List Nat} {t : Option Nat}
    (hc : CacheInv c) (h : (i, e) ∈ c.ll) :
    CacheInv { c with ll := (i, { e with value := v, expiresAt := t }) :: llRemove c.ll i } := by
  have hperm := perm_cons_llRemove hc.ids_nodup h
  have hmid : CacheInv { c with ll := (i, e) :: llRemove c.ll i } := hc.of_perm hperm
  constructor
  · have : ((i, { e with value := v, expiresAt := t }) :: llRemove c.ll i).map Prod.fst
        = ((i, e) :: llRemove c.ll i).map Prod.fst := by simp
    rw [this]
    exact hmid.ids_nodup
  · have : ((i, { e with value := v, expiresAt := t }) :: llRemove c.ll i).map
          (fun q => q.2.key)
        = ((i, e) :: llRemove c.ll i).map (fun q => q.2.key) := by simp
    rw [this]
    exact hmid.keys_nodup
  · exact hmid.items_nodup
  · intro k j
    simp only
    rw [hmid.lookup k j]
    constructor
    · rintro ⟨e', he', hk⟩
      rcases List.mem_cons.mp he' with heq | hmem
      · have h1 : j = i := congrArg Prod.fst heq
        have h2 : e' = e := congrArg Prod.snd heq
        subst h1
        refine ⟨{ e with value := v, expiresAt := t }, List.mem_cons_self _ _, ?_⟩
        rw [← hk, h2]
      · exact ⟨e', List.mem_cons_of_mem _ hmem, hk⟩
    · rintro ⟨e', he', hk⟩
      rcases List.mem_cons.mp he' with heq | hmem
      · have h1 : j = i := congrArg Prod.fst heq
        have h2 : e' = { e with value := v, expiresAt := t } := congrArg Prod.snd heq
        subst h1
        refine ⟨e, List.mem_cons_self _ _, ?_⟩
        rw [← hk, h2]
      · exact ⟨e', List.mem_cons_of_mem _ hmem, hk⟩
  · intro q hq
    show q.1 < c.nextId
    rcases List.mem_cons.mp hq with heq | hmem
    · have h1 : q.1 = i := congrArg Prod.fst heq
      rw [h1]
      exact hmid.ids_lt (i, e) (List.mem_cons_self _ _)
    · exact hmid.ids_lt q (List.mem_cons_of_mem _ hmem)

/-- Pushing a fresh element for an absent key and indexing it preserves the
bijection invariant. -/
theorem CacheInv.insert {c : Cache} {key : String} {v : List Nat} {t : Option Nat}
    (hc : CacheInv c) (h : mapGet c.items key = none) :
    CacheInv { c with
          ll := (c.nextId, { key := key, value := v, expiresAt := t }) :: c.ll
          items := mapInsert c.items key c.nextId
          nextId := c.nextId + 1 } := by
  have hid : ∀ q ∈ c.ll, q.1 ≠ c.nextId := by
    intro q hq hqe
    exact absurd hqe (Nat.ne_of_lt (hc.ids_lt q hq))
  have hkey : ∀ q ∈ c.ll, q.2.key ≠ key := hc.absent h
  constructor
  · simp only [List.map_cons, List.nodup_cons]
    refine ⟨?_, hc.ids_nodup⟩
    intro hmem
    rcases List.mem_map.mp hmem with ⟨q, hq, hq1⟩
    exact hid q hq hq1
  · simp only [List.map_cons, List.nodup_cons]
    refine ⟨?_, hc.keys_nodup⟩
    intro hmem
    rcases List.mem_map.mp hmem with ⟨q, hq, hq1⟩
    exact hkey q hq hq1
  · exact mapInsert_fst_nodup hc.items_nodup
  · intro k j
    simp only
    rw [show ((k, j) ∈ mapInsert c.items key c.nextId)
        = ((k, j) = (key, c.nextId) ∨ ((k, j) ∈ c.items ∧ k ≠ key)) from
      propext mem_mapInsert]
    constructor
    · rintro (heq | ⟨hkj, hne⟩)
      · have h1 : k = key := congrArg Prod.fst heq
        have h2 : j = c.nextId := congrArg Prod.snd heq
        subst h1; subst h2
        exact ⟨_, List.mem_cons_self _ _, rfl⟩
      · rcases (hc.lookup k j).mp hkj with ⟨e', he', hk⟩
        exact ⟨e', List.mem_cons_of_mem _ he', hk⟩
    · rintro ⟨e', he', hk⟩
      rcases List.mem_cons.mp he' with heq | hmem
      · left
        have h1 : j = c.nextId := congrArg Prod.fst heq
        have h2 : e' = { key := key, value := v, expiresAt := t } := congrArg Prod.snd heq
        rw [← hk, h2, h1]
      · right
        refine ⟨(hc.lookup k j).mpr ⟨e', hmem, hk⟩, ?_⟩
        intro hke
        exact hkey (j, e') hmem (by rw [hk, hke])
  · intro q hq
    show q.1 < c.nextId + 1
    rcases List.mem_cons.mp hq with heq | hmem
    · have : q.1 = c.nextId := congrArg Prod.fst heq
      omega
    · have := hc.ids_lt q hmem
      omega

theorem foldl_filter {β α : Type} (f : β → α → Bool) :
    ∀ (rs : List β) (l : List α),
      rs.foldl (fun acc r => acc.filter (f r)) l
        = l.filter (fun a => rs.all (fun r => f r a)) := by
  intro rs
  induction rs with
  | nil => intro l; simp
  | cons r rest ih =>
    intro l
    simp only [List.foldl_cons, ih, List.filter_filter]
    apply List.filter_congr
    intro a _
    simp [Bool.and_comm]

/-! ## Shapes of the operations, by branch -/

theorem Get_absent {c : Cache} {now : Nat} {key : String}
    (h : mapGet c.items key = none) : c.Get now key = (none, c) := by
  unfold Cache.Get
  rw [h]

theorem Get_expired {c : Cache} {now : Nat} {key : String} {i : Nat} {e : entry}
    (h : mapGet c.items key = some i) (hf : llFind c.ll i = some e)
    (hx : e.isExpired now = true) :
    c.Get now key
      = (none, { c with ll := llRemove c.ll i, items := mapDelete c.items e.key }) := by
  simp [Cache.Get, h, hf, hx]

theorem Get_live {c : Cache} {now : Nat} {key : String} {i : Nat} {e : entry}
    (h : mapGet c.items key = some i) (hf : llFind c.ll i = some e)
    (hx : e.isExpired now = false) :
    c.Get now key
      = (some e.value, { c with ll := llMoveToFront c.ll i }) := by
  simp [Cache.Get, h, hf, hx]

theorem getLast?_cons_of_ne_nil {α : Type} {l : List α} (a : α) (h : l ≠ []) :
    (a :: l).getLast? = l.getLast? := by
  cases l with
  | nil => exact absurd rfl h
  | cons b l2 => rw [List.getLast?_cons_cons]

theorem Set_present {c : Cache} {now : Nat} {key : String} {v : List Nat} {ttl : Int}
    {i : Nat} {e : entry}
    (hc : CacheInv c) (hsz : c.ll.length ≤ c.capacity)
    (h : mapGet c.items key = some i) (he : (i, e) ∈ c.ll) :
    c.Set now key v ttl
      = { c with ll := (i, { e with value := v, expiresAt := expiryOf now ttl })
            :: llRemove c.ll i } := by
  have hup := llUpdate_llMoveToFront (v := v) (t := expiryOf now ttl) hc.ids_nodup he
  have hlen : ((i, { e with value := v, expiresAt := expiryOf now ttl })
      :: llRemove c.ll i).length = c.ll.length := by
    have := length_llRemove hc.ids_nodup he
    simpa using this
  simp only [Cache.Set, h]
  rw [hup, if_neg]
  intro hcond
  rw [hlen] at hcond
  omega

theorem Set_absent_small {c : Cache} {now : Nat} {key : String} {v : List Nat} {ttl : Int}
    (h : mapGet c.items key = none) (hsz : c.ll.length < c.capacity) :
    c.Set now key v ttl
      = { c with
          ll := (c.nextId, { key := key, value := v, expiresAt := expiryOf now ttl }) :: c.ll
          items := mapInsert c.items key c.nextId
          nextId := c.nextId + 1 } := by
  simp only [Cache.Set, h]
  rw [if_neg]
  intro hcond
  have h2 := hcond.2
  simp only [List.length_cons] at h2
  omega

theorem Set_absent_full {c : Cache} {now : Nat} {key : String} {v : List Nat} {ttl : Int}
    {last : Nat × entry}
    (h : mapGet c.items key = none) (hcap : 0 < c.capacity)
    (hsz : c.ll.length = c.capacity) (hlast : c.ll.getLast? = some last) :
    c.Set now key v ttl
      = { c with
          ll := llRemove
            ((c.nextId, { key := key, value := v, expiresAt := expiryOf now ttl }) :: c.ll)
            last.1
          items := mapDelete (mapInsert c.items key c.nextId) last.2.key
          nextId := c.nextId + 1 } := by
  have hne : c.ll ≠ [] := by
    intro hnil
    rw [hnil] at hlast
    simp at hlast
  have hcond : 0 < c.capacity ∧ c.capacity
      < ((c.nextId, { key := key, value := v, expiresAt := expiryOf now ttl })
          :: c.ll).length := by
    refine ⟨hcap, ?_⟩
    simp only [List.length_cons]
    omega
  simp only [Cache.Set, h]
  rw [if_pos hcond, getLast?_cons_of_ne_nil _ hne, hlast]

theorem evictExpired_llEq {c : Cache} {now : Nat} (hnd : (c.ll.map Prod.fst).Nodup) :
    (c.evictExpired now).ll = c.ll.filter (fun q => !q.2.isExpired now) := by
  have h1 : (c.ll.filter (fun q => q.2.isExpired now)).foldl
        (fun l q => llRemove l q.1) c.ll
      = c.ll.filter (fun p =>
          (c.ll.filter (fun q => q.2.isExpired now)).all (fun r => p.1 != r.1)) :=
    foldl_filter (fun (r p : Nat × entry) => p.1 != r.1) _ _
  show (c.ll.filter (fun q => q.2.isExpired now)).foldl (fun l q => llRemove l q.1) c.ll = _
  rw [h1]
  apply List.filter_congr
  intro p hp
  cases hx : p.2.isExpired now with
  | true =>
    simp only [Bool.not_true]
    rw [List.all_eq_false]
    exact ⟨p, List.mem_filter.mpr ⟨hp, hx⟩, by simp⟩
  | false =>
    simp only [Bool.not_false]
    rw [List.all_eq_true]
    intro r hr
    rcases List.mem_filter.mp hr with ⟨hrll, hrx⟩
    have hne : p.1 ≠ r.1 := by
      intro hpr
      have hpr2 : p = r := List.inj_on_of_nodup_map hnd hp hrll hpr
      rw [hpr2, hrx] at hx
      cases hx
    simpa using hne

theorem evictExpired_itemsEq {c : Cache} {now : Nat} :
    (c.evictExpired now).items
      = c.items.filter (fun a =>
          (c.ll.filter (fun q => q.2.isExpired now)).all (fun r => a.1 != r.2.key)) := by
  have h1 : (c.ll.filter (fun q => q.2.isExpired now)).foldl
        (fun m q => mapDelete m q.2.key) c.items
      = c.items.filter (fun a =>
          (c.ll.filter (fun q => q.2.isExpired now)).all (fun r => a.1 != r.2.key)) :=
    foldl_filter (fun (r : Nat × entry) (a : String × Nat) => a.1 != r.2.key) _ _
  show (c.ll.filter (fun q => q.2.isExpired now)).foldl
      (fun m q => mapDelete m q.2.key) c.items = _
  rw [h1]

theorem evictExpired_capacity (c : Cache) (now : Nat) :
    (c.evictExpired now).capacity = c.capacity := rfl

theorem evictExpired_nextId (c : Cache) (now : Nat) :
    (c.evictExpired now).nextId = c.nextId := rfl

/-! ## Preservation of well-formedness by every operation -/

theorem CacheWF.new (capacity : Int) : CacheWF (New capacity) := by
  refine ⟨⟨?_, ?_, ?_, ?_, ?_⟩, ?_, ?_⟩
  · simp [New]
  · simp [New]
  · simp [New]
  · intro k i
    simp [New]
  · intro q hq
    simp [New] at hq
  · show 0 < (if capacity ≤ 0 then 1 else capacity).toNat
    split <;> omega
  · show List.length [] ≤ (New capacity).capacity
    simp

theorem CacheWF.get {c : Cache} (hwf : CacheWF c) (now : Nat) (key : String) :
    CacheWF (c.Get now key).2 := by
  cases hm : mapGet c.items key with
  | none =>
    rw [Get_absent hm]
    exact hwf
  | some i =>
    cases hf : llFind c.ll i with
    | none =>
      simp only [Cache.Get, hm, hf]
      exact hwf
    | some e =>
      have he := llFind_mem hf
      cases hx : e.isExpired now with
      | true =>
        rw [Get_expired hm hf hx]
        refine ⟨hwf.inv.remove he, hwf.cap_pos, ?_⟩
        calc (llRemove c.ll i).length
            ≤ c.ll.length := (llRemove_sublist c.ll i).length_le
          _ ≤ c.capacity := hwf.size_le
      | false =>
        rw [Get_live hm hf hx]
        have hperm : c.ll.Perm (llMoveToFront c.ll i) := by
          rw [llMoveToFront_eq hwf.inv.ids_nodup he]
          exact perm_cons_llRemove hwf.inv.ids_nodup he
        refine ⟨hwf.inv.of_perm hperm, hwf.cap_pos, ?_⟩
        show (llMoveToFront c.ll i).length ≤ c.capacity
        rw [← hperm.length_eq]
        exact hwf.size_le

theorem CacheWF.set {c : Cache} (hwf : CacheWF c) (now : Nat) (key : String)
    (v : List Nat) (ttl : Int) : CacheWF (c.Set now key v ttl) := by
  cases hm : mapGet c.items key with
  | some i =>
    rcases hwf.inv.present hm with ⟨e, _, he, _⟩
    rw [Set_present hwf.inv hwf.size_le hm he]
    refine ⟨hwf.inv.update he, hwf.cap_pos, ?_⟩
    show ((i, { e with value := v, expiresAt := expiryOf now ttl })
        :: llRemove c.ll i).length ≤ c.capacity
    have := length_llRemove hwf.inv.ids_nodup he
    have h2 := hwf.size_le
    simp only [List.length_cons]
    omega
  | none =>
    rcases Nat.lt_or_ge c.ll.length c.capacity with hlt | hge
    · rw [Set_absent_small hm hlt]
      refine ⟨hwf.inv.insert hm, hwf.cap_pos, ?_⟩
      show ((c.nextId, { key := key, value := v, expiresAt := expiryOf now ttl })
          :: c.ll).length ≤ c.capacity
      simp only [List.length_cons]
      omega
    · have hsz : c.ll.length = c.capacity := Nat.le_antisymm hwf.size_le hge
      have hne : c.ll ≠ [] := by
        intro hnil
        rw [hnil] at hsz
        have := hwf.cap_pos
        simp at hsz
        omega
      cases hlast : c.ll.getLast? with
      | none =>
        exact absurd (List.getLast?_eq_none_iff.mp hlast) hne
      | some last =>
        rw [Set_absent_full hm hwf.cap_pos hsz hlast]
        have hc1 : CacheInv { c with
            ll := (c.nextId, { key := key, value := v, expiresAt := expiryOf now ttl }) :: c.ll
            items := mapInsert c.items key c.nextId
            nextId := c.nextId + 1 } := hwf.inv.insert hm
        have hlastmem : last ∈ c.ll := List.mem_of_getLast?_eq_some hlast
        have hlastmem1 : (last.1, last.2)
            ∈ ((c.nextId, { key := key, value := v, expiresAt := expiryOf now ttl })
                :: c.ll) := by
          exact List.mem_cons_of_mem _ (by simpa using hlastmem)
        refine ⟨hc1.remove hlastmem1, hwf.cap_pos, ?_⟩
        have hlen := length_llRemove hc1.ids_nodup hlastmem1
        show (llRemove ((c.nextId,
            { key := key, value := v, expiresAt := expiryOf now ttl }) :: c.ll)
            last.1).length ≤ c.capacity
        simp only [List.length_cons] at hlen
        omega

theorem CacheInv.sweep {c : Cache} (hc : CacheInv c) (now : Nat) :
    CacheInv (c.evictExpired now) := by
  have hll := @evictExpired_llEq c now hc.ids_nodup
  have hit := @evictExpired_itemsEq c now
  refine ⟨?_, ?_, ?_, ?_, ?_⟩
  · rw [hll]
    exact ((List.filter_sublist _).map Prod.fst).nodup hc.ids_nodup
  · rw [hll]
    exact ((List.filter_sublist _).map _).nodup hc.keys_nodup
  · rw [hit]
    exact ((List.filter_sublist _).map Prod.fst).nodup hc.items_nodup
  · intro k j
    rw [show ((k, j) ∈ (c.evictExpired now).items) = ((k, j) ∈ c.items.filter (fun a =>
        (c.ll.filter (fun q => q.2.isExpired now)).all (fun r => a.1 != r.2.key))) from by
      rw [hit]]
    rw [List.mem_filter]
    constructor
    · rintro ⟨hkj, hall⟩
      rcases (hc.lookup k j).mp hkj with ⟨e, he, hk⟩
      have hnx : e.isExpired now = false := by
        cases hxe : e.isExpired now with
        | false => rfl
        | true =>
          have hmemf : (j, e) ∈ c.ll.filter (fun q => q.2.isExpired now) :=
            List.mem_filter.mpr ⟨he, hxe⟩
          have := List.all_eq_true.mp hall (j, e) hmemf
          simp only [bne_iff_ne, ne_eq, decide_eq_true_eq] at this
          exact absurd hk.symm this
      refine ⟨e, ?_, hk⟩
      rw [hll]
      exact List.mem_filter.mpr ⟨he, by rw [hnx]; rfl⟩
    · rintro ⟨e, he, hk⟩
      rw [hll] at he
      rcases List.mem_filter.mp he with ⟨hell, hnx⟩
      refine ⟨(hc.lookup k j).mpr ⟨e, hell, hk⟩, ?_⟩
      rw [List.all_eq_true]
      intro r hr
      rcases List.mem_filter.mp hr with ⟨hrll, hrx⟩
      simp only [bne_iff_ne, ne_eq, decide_eq_true_eq]
      intro hke
      have : r = (j, e) := hc.key_inj hrll hell (by rw [← hke, hk])
      rw [this] at hrx
      rw [hrx] at hnx
      cases hnx
  · intro q hq
    rw [hll] at hq
    rw [evictExpired_nextId]
    exact hc.ids_lt q (List.mem_filter.mp hq).1

theorem CacheWF.evict {c : Cache} (hwf : CacheWF c) (now : Nat) :
    CacheWF (c.evictExpired now) := by
  refine ⟨hwf.inv.sweep now, ?_, ?_⟩
  · rw [evictExpired_capacity]
    exact hwf.cap_pos
  · rw [evictExpired_capacity, evictExpired_llEq hwf.inv.ids_nodup]
    calc (c.ll.filter (fun q => !q.2.isExpired now)).length
        ≤ c.ll.length := (List.filter_sublist _).length_le
      _ ≤ c.capacity := hwf.size_le

theorem wf_applyOp {c : Cache} (hwf : CacheWF c) (op : Op) :
    CacheWF (applyOp c op) := by
  cases op with
  | get now k => exact hwf.get now k
  | set now k v t => exact hwf.set now k v t
  | sweep now => exact hwf.evict now

theorem wf_runOps {c : Cache} (hwf : CacheWF c) (ops : List Op) :
    CacheWF (runOps c ops) := by
  induction ops generalizing c with
  | nil => exact hwf
  | cons op rest ih =>
    show CacheWF (runOps (applyOp c op) rest)
    exact ih (wf_applyOp hwf op)

/-! ## Small derived facts used by the claim theorems -/

theorem llFind_cons_self {ll : List (Nat × entry)} {i : Nat} {e : entry} :
    llFind ((i, e) :: ll) i = some e := by
  simp [llFind, List.find?_cons]

theorem mapGet_mapInsert_self {m : List (String × Nat)} {k : String} {i : Nat} :
    mapGet (mapInsert m k i) k = some i := by
  simp [mapGet, mapInsert, List.find?_cons]

theorem mapGet_mapDelete_self {m : List (String × Nat)} {k : String} :
    mapGet (mapDelete m k) k = none := by
  rw [mapGet_eq_none]
  intro q hq
  exact (mem_mapDelete.mp hq).2

theorem mapGet_mapDelete_ne {m : List (String × Nat)} {k k2 : String} (hne : k ≠ k2) :
    mapGet (mapDelete m k2) k = mapGet m k := by
  induction m with
  | nil => rfl
  | cons a rest ih =>
    show mapGet (List.filter _ (a :: rest)) k = _
    rw [List.filter_cons]
    by_cases ha : a.1 = k2
    · have hb : (a.1 != k2) = false := by simp [ha]
      rw [hb]
      simp only [Bool.false_eq_true, if_false]
      show mapGet (mapDelete rest k2) k = _
      rw [ih]
      unfold mapGet
      rw [List.find?_cons]
      have hb2 : (a.1 == k) = false := by
        rw [ha]
        simp only [beq_eq_false_iff_ne, ne_eq]
        exact fun h => hne h.symm
      rw [hb2]
    · have hb : (a.1 != k2) = true := by simpa using ha
      rw [hb]
      simp only [if_true]
      unfold mapGet at ih ⊢
      rw [List.find?_cons, List.find?_cons]
      cases hak : a.1 == k with
      | true => rfl
      | false => exact ih

theorem llRemove_getLast {ll : List (Nat × entry)} {p : Nat × entry}
    (hnd : (ll.map Prod.fst).Nodup) (hlast : ll.getLast? = some p) :
    llRemove ll p.1 = ll.dropLast := by
  have hne : ll ≠ [] := by
    intro h
    rw [h] at hlast
    simp at hlast
  have hgl : ll.getLast hne = p := by
    rw [List.getLast?_eq_getLast ll hne] at hlast
    exact Option.some.inj hlast
  have h1 : ll.dropLast ++ [p] = ll := by
    have := List.dropLast_append_getLast hne
    rw [hgl] at this
    exact this
  have hnd2 : ((ll.dropLast ++ [p]).map Prod.fst).Nodup := by
    rw [h1]
    exact hnd
  rw [List.map_append] at hnd2
  have hnotin : ∀ q ∈ ll.dropLast, q.1 ≠ p.1 := by
    intro q hq hqp
    have hpin : p.1 ∈ ll.dropLast.map Prod.fst :=
      hqp ▸ List.mem_map.mpr ⟨q, hq, rfl⟩
    exact (List.nodup_append.mp hnd2).2.2 hpin (by simp)
  calc llRemove ll p.1
      = llRemove (ll.dropLast ++ [p]) p.1 := by rw [h1]
    _ = llRemove ll.dropLast p.1 ++ llRemove [p] p.1 := by
        show List.filter _ _ = _
        rw [List.filter_append]
        rfl
    _ = ll.dropLast ++ [] := by
        rw [llRemove_eq_self hnotin]
        congr 1
        show List.filter _ [p] = []
        simp
    _ = ll.dropLast := by simp

theorem llRemove_cons_ne {ll : List (Nat × entry)} {a : Nat × entry} {i : Nat}
    (hne : a.1 ≠ i) : llRemove (a :: ll) i = a :: llRemove ll i := by
  show List.filter _ _ = _
  rw [List.filter_cons]
  have hb : (a.1 != i) = true := by simpa using hne
  rw [hb]
  simp only [if_true]
  rfl

theorem isExpired_expiryOf {e : entry} {now : Nat} {ttl : Int}
    (h : e.expiresAt = expiryOf now ttl) : e.isExpired now = false := by
  unfold entry.isExpired
  rw [h]
  unfold expiryOf
  by_cases hp : 0 < ttl
  · rw [if_pos hp]
    show decide (now + ttl.toNat < now) = false
    simp only [decide_eq_false_iff_not, not_lt]
    omega
  · rw [if_neg hp]

/-- After any `Set(key, v, ttl)` on a well-formed cache, the index resolves
`key` to a live element holding exactly the entry
`{key, v, now + ttl if ttl > 0 else never}`. -/
theorem Set_stored {c : Cache} {now : Nat} {key : String} {v : List Nat} {ttl : Int}
    (hwf : CacheWF c) :
    ∃ i, mapGet (c.Set now key v ttl).items key = some i
      ∧ llFind (c.Set now key v ttl).ll i
          = some { key := key, value := v, expiresAt := expiryOf now ttl } := by
  cases hm : mapGet c.items key with
  | some i =>
    rcases hwf.inv.present hm with ⟨e, _, he, hk⟩
    rw [Set_present hwf.inv hwf.size_le hm he]
    refine ⟨i, hm, ?_⟩
    show llFind ((i, { e with value := v, expiresAt := expiryOf now ttl })
        :: llRemove c.ll i) i = _
    rw [llFind_cons_self]
    obtain ⟨ek, ev, ex⟩ := e
    simp only at hk
    rw [hk]
  | none =>
    rcases Nat.lt_or_ge c.ll.length c.capacity with hlt | hge
    · rw [Set_absent_small hm hlt]
      exact ⟨c.nextId, mapGet_mapInsert_self, llFind_cons_self⟩
    · have hsz : c.ll.length = c.capacity := Nat.le_antisymm hwf.size_le hge
      have hne : c.ll ≠ [] := by
        intro hnil
        rw [hnil] at hsz
        have := hwf.cap_pos
        simp at hsz
        omega
      cases hlast : c.ll.getLast? with
      | none => exact absurd (List.getLast?_eq_none_iff.mp hlast) hne
      | some last =>
        rw [Set_absent_full hm hwf.cap_pos hsz hlast]
        have hlastmem : last ∈ c.ll := List.mem_of_getLast?_eq_some hlast
        have hlkey : last.2.key ≠ key := by
          intro hk
          exact hwf.inv.absent hm last hlastmem hk
        have hnid : c.nextId ≠ last.1 := by
          have := hwf.inv.ids_lt last hlastmem
          omega
        refine ⟨c.nextId, ?_, ?_⟩
        · show mapGet (mapDelete (mapInsert c.items key c.nextId) last.2.key) key = _
          rw [mapGet_mapDelete_ne (fun h => hlkey h.symm)]
          exact mapGet_mapInsert_self
        · show llFind (llRemove ((c.nextId,
              { key := key, value := v, expiresAt := expiryOf now ttl }) :: c.ll)
              last.1) c.nextId = _
          rw [llRemove_cons_ne hnid]
          exact llFind_cons_self

/-! ## The claims -/

/-- C1: for every cache built by `New` and every sequence of `Get`, `Set`
and background-sweep operations, the index and the recency list have the
same size, that size never exceeds the coerced (≥ 1) capacity, and index
keys are in bijection with list entries: each index key resolves to exactly
one list element carrying that key, and every list entry's key is indexed. -/
theorem claim1_structural_invariant (cap : Int) (ops : List Op) :
    (runOps (New cap) ops).items.length = (runOps (New cap) ops).ll.length
    ∧ (runOps (New cap) ops).ll.length ≤ (runOps (New cap) ops).capacity
    ∧ 1 ≤ (runOps (New cap) ops).capacity
    ∧ (∀ p ∈ (runOps (New cap) ops).items,
        ∃ e, (p.2, e) ∈ (runOps (New cap) ops).ll ∧ e.key = p.1
          ∧ ∀ q ∈ (runOps (New cap) ops).ll, q.2.key = p.1 → q = (p.2, e))
    ∧ (∀ q ∈ (runOps (New cap) ops).ll,
        (q.2.key, q.1) ∈ (runOps (New cap) ops).items) := by
  have hwf := wf_runOps (CacheWF.new cap) ops
  refine ⟨hwf.inv.items_length, hwf.size_le, hwf.cap_pos, ?_, ?_⟩
  · intro p hp
    rcases (hwf.inv.lookup p.1 p.2).mp (by simpa using hp) with ⟨e, he, hk⟩
    refine ⟨e, he, hk, ?_⟩
    intro q hq hqk
    exact hwf.inv.key_inj hq he (by rw [hqk, hk])
  · intro q hq
    exact (hwf.inv.lookup q.2.key q.1).mpr ⟨q.2, by simpa using hq, rfl⟩

/-- C2, counterexample to the claim as stated: the claim declares an entry
expired as soon as `now ≥ expiresAt`, but `isExpired` uses Go's
`time.Now().After`, which is strict.  With `expiresAt = 5` and `now = 5`
(so `now ≥ expiresAt`), the key is physically present with its expiry set,
yet `Get` returns the value instead of not-found. -/
theorem claim2_boundary_counterexample :
    mapGet ((New 2).Set 0 "a" [1] 5).items "a" = some 0
    ∧ llFind ((New 2).Set 0 "a" [1] 5).ll 0
        = some { key := "a", value := [1], expiresAt := some 5 }
    ∧ 5 ≥ (5 : Nat)
    ∧ (((New 2).Set 0 "a" [1] 5).Get 5 "a").1 = some [1] := by
  refine ⟨?_, ?_, ?_, ?_⟩ <;> decide

/-- C2 (amended: "now ≥ expiresAt" tightened to "expiresAt < now", i.e. the
expiry instant has strictly passed, matching `time.Now().After`): for every
physically present key whose entry carries a set `expiresAt` strictly in
the past, `Get` removes the entry from both the index and the recency
order and returns not-found (`none`), even though no sweep has run. -/
theorem claim2_lazy_expiration {c : Cache} {now t : Nat} {key : String} {i : Nat} {e : entry}
    (hwf : CacheWF c)
    (hi : mapGet c.items key = some i) (hf : llFind c.ll i = some e)
    (ht : e.expiresAt = some t) (hlt : t < now) :
    (c.Get now key).1 = none
    ∧ mapGet (c.Get now key).2.items key = none
    ∧ ∀ q ∈ (c.Get now key).2.ll, q.2.key ≠ key := by
  have hx : e.isExpired now = true := by
    unfold entry.isExpired
    rw [ht]
    simpa using hlt
  have he := llFind_mem hf
  have hkey : e.key = key := by
    rcases hwf.inv.present hi with ⟨e2, hf2, _, hk2⟩
    rw [hf2] at hf
    rw [← Option.some.inj hf]
    exact hk2
  rw [Get_expired hi hf hx]
  refine ⟨rfl, ?_, ?_⟩
  · show mapGet (mapDelete c.items e.key) key = none
    rw [mapGet_eq_none]
    intro q hq
    rw [← hkey]
    exact (mem_mapDelete.mp hq).2
  · intro q hq hqk
    rcases mem_llRemove.mp hq with ⟨hmem, hne⟩
    have : q = (i, e) := hwf.inv.key_inj hmem he (by rw [hqk, hkey])
    exact hne (congrArg Prod.fst this)

/-- Witness for C2 on a concrete run: key "a" written at time 0 with ttl 5,
read at time 6 (expiry 5 strictly past): not-found, and gone from both
structures. -/
theorem claim2_lazy_expiration_witness :
    ((((New 2).Set 0 "a" [1] 5).Get 6 "a").1 = none
    ∧ mapGet ((((New 2).Set 0 "a" [1] 5).Get 6 "a")).2.items "a" = none
    ∧ ∀ q ∈ ((((New 2).Set 0 "a" [1] 5).Get 6 "a")).2.ll, q.2.key ≠ "a") :=
  @claim2_lazy_expiration ((New 2).Set 0 "a" [1] 5) 6 5 "a" 0
    { key := "a", value := [1], expiresAt := some 5 }
    ((CacheWF.new 2).set 0 "a" [1] 5)
    (by decide) (by decide) (by decide) (by decide)

/-- C6: one tick of the background sweep keeps exactly the entries that are
not yet expired, in their original relative order (the surviving list is a
`filter` of the old one); every expired entry's key leaves the index, and
every surviving entry's index binding is untouched. -/
theorem claim6_sweep_exactness {c : Cache} {now : Nat} (hwf : CacheWF c) :
    (c.evictExpired now).ll = c.ll.filter (fun q => !q.2.isExpired now)
    ∧ (∀ q ∈ c.ll, q.2.isExpired now = true →
        mapGet (c.evictExpired now).items q.2.key = none)
    ∧ (∀ q ∈ c.ll, q.2.isExpired now = false →
        mapGet (c.evictExpired now).items q.2.key = mapGet c.items q.2.key) := by
  have hll := @evictExpired_llEq c now hwf.inv.ids_nodup
  refine ⟨hll, ?_, ?_⟩
  · intro q hq hx
    rw [mapGet_eq_none]
    intro a ha
    rw [evictExpired_itemsEq] at ha
    rcases List.mem_filter.mp ha with ⟨_, hall⟩
    have := List.all_eq_true.mp hall q (List.mem_filter.mpr ⟨hq, hx⟩)
    simpa using this
  · intro q hq hx
    have hinv2 := hwf.inv.sweep now
    have hmem2 : (q.1, q.2) ∈ (c.evictExpired now).ll := by
      rw [hll]
      refine List.mem_filter.mpr ⟨by simpa using hq, ?_⟩
      rw [hx]
      rfl
    have h1 : mapGet (c.evictExpired now).items q.2.key = some q.1 :=
      mapGet_of_mem hinv2.items_nodup
        ((hinv2.lookup q.2.key q.1).mpr ⟨q.2, hmem2, rfl⟩)
    have h2 : mapGet c.items q.2.key = some q.1 :=
      mapGet_of_mem hwf.inv.items_nodup
        ((hwf.inv.lookup q.2.key q.1).mpr ⟨q.2, by simpa using hq, rfl⟩)
    rw [h1, h2]

/-- Witness for C6: at time 9, a cache holding "a" (expiry 5, expired) and
"b" (no expiry) sweeps down to exactly "b", with "a" dropped from the index
and "b"'s binding intact. -/
theorem claim6_sweep_exactness_witness :
    ((((New 5).Set 0 "a" [1] 5).Set 0 "b" [2] 0).evictExpired 9).ll
        = (((New 5).Set 0 "a" [1] 5).Set 0 "b" [2] 0).ll.filter
            (fun q => !q.2.isExpired 9)
    ∧ (∀ q ∈ (((New 5).Set 0 "a" [1] 5).Set 0 "b" [2] 0).ll,
        q.2.isExpired 9 = true →
        mapGet ((((New 5).Set 0 "a" [1] 5).Set 0 "b" [2] 0).evictExpired 9).items
          q.2.key = none)
    ∧ (∀ q ∈ (((New 5).Set 0 "a" [1] 5).Set 0 "b" [2] 0).ll,
        q.2.isExpired 9 = false →
        mapGet ((((New 5).Set 0 "a" [1] 5).Set 0 "b" [2] 0).evictExpired 9).items
          q.2.key
        = mapGet (((New 5).Set 0 "a" [1] 5).Set 0 "b" [2] 0).items q.2.key) :=
  claim6_sweep_exactness (((CacheWF.new 5).set 0 "a" [1] 5).set 0 "b" [2] 0)

/-- C3: `Set` on an absent key inserts a fresh entry at the front of the
recency order and indexes it; when the insertion leaves the list within
capacity nothing else changes, and when it exceeds capacity exactly the
back element is removed — the result is the new front followed by
`dropLast` of the old list, the evicted key leaves the index, and the net
length is unchanged (so at most one eviction per insertion). -/
theorem claim3_insert_and_evict {c : Cache} {now : Nat} {key : String} {v : List Nat}
    {ttl : Int} (hwf : CacheWF c) (habs : mapGet c.items key = none) :
    (c.ll.length < c.capacity →
      (c.Set now key v ttl).ll
          = (c.nextId, { key := key, value := v, expiresAt := expiryOf now ttl }) :: c.ll
      ∧ mapGet (c.Set now key v ttl).items key = some c.nextId)
    ∧ (c.ll.length = c.capacity →
      ∃ last, c.ll.getLast? = some last
      ∧ (c.Set now key v ttl).ll
          = (c.nextId, { key := key, value := v, expiresAt := expiryOf now ttl })
              :: c.ll.dropLast
      ∧ mapGet (c.Set now key v ttl).items key = some c.nextId
      ∧ mapGet (c.Set now key v ttl).items last.2.key = none
      ∧ (∀ q ∈ (c.Set now key v ttl).ll, q.2.key ≠ last.2.key)
      ∧ (c.Set now key v ttl).ll.length = c.ll.length) := by
  constructor
  · intro hlt
    rw [Set_absent_small habs hlt]
    exact ⟨rfl, mapGet_mapInsert_self⟩
  · intro hsz
    have hne : c.ll ≠ [] := by
      intro hnil
      rw [hnil] at hsz
      have := hwf.cap_pos
      simp at hsz
      omega
    cases hlast : c.ll.getLast? with
    | none => exact absurd (List.getLast?_eq_none_iff.mp hlast) hne
    | some last =>
      have hlastmem : last ∈ c.ll := List.mem_of_getLast?_eq_some hlast
      have hnid : c.nextId ≠ last.1 := by
        have := hwf.inv.ids_lt last hlastmem
        omega
      have hlkey : last.2.key ≠ key := fun hk => hwf.inv.absent habs last hlastmem hk
      rw [Set_absent_full habs hwf.cap_pos hsz hlast]
      refine ⟨last, rfl, ?_, ?_, ?_, ?_, ?_⟩
      · show llRemove ((c.nextId,
            { key := key, value := v, expiresAt := expiryOf now ttl }) :: c.ll) last.1 = _
        rw [llRemove_cons_ne hnid, llRemove_getLast hwf.inv.ids_nodup hlast]
      · show mapGet (mapDelete (mapInsert c.items key c.nextId) last.2.key) key = _
        rw [mapGet_mapDelete_ne (fun h => hlkey h.symm)]
        exact mapGet_mapInsert_self
      · exact mapGet_mapDelete_self
      · intro q hq
        rcases mem_llRemove.mp hq with ⟨hmem, hqid⟩
        rcases List.mem_cons.mp hmem with heq | hmem2
        · have hq2 : q.2 = { key := key, value := v, expiresAt := expiryOf now ttl } :=
            congrArg Prod.snd heq
          rw [hq2]
          exact fun h => hlkey h.symm
        · intro hk
          have : q = (last.1, last.2) :=
            hwf.inv.key_inj hmem2 (by simpa using hlastmem) hk
          exact hqid (congrArg Prod.fst this)
      · show (llRemove ((c.nextId,
            { key := key, value := v, expiresAt := expiryOf now ttl }) :: c.ll)
            last.1).length = c.ll.length
        rw [llRemove_cons_ne hnid, llRemove_getLast hwf.inv.ids_nodup hlast]
        have h1 : c.ll.length ≠ 0 := by
          intro h0
          exact hne (List.length_eq_zero.mp h0)
        simp only [List.length_cons, List.length_dropLast]
        omega

/-- Witness for C3 on a concrete cache: capacity 2 holding only "a"
(under-capacity branch) and then "a","b" (full branch). -/
theorem claim3_insert_and_evict_witness :
    ((((New 2).Set 0 "a" [1] 0).ll.length < ((New 2).Set 0 "a" [1] 0).capacity →
      (((New 2).Set 0 "a" [1] 0).Set 1 "b" [2] 0).ll
          = (((New 2).Set 0 "a" [1] 0).nextId,
              { key := "b", value := [2], expiresAt := expiryOf 1 0 })
              :: ((New 2).Set 0 "a" [1] 0).ll
      ∧ mapGet ((((New 2).Set 0 "a" [1] 0).Set 1 "b" [2] 0)).items "b"
          = some ((New 2).Set 0 "a" [1] 0).nextId)
    ∧ (((New 2).Set 0 "a" [1] 0).ll.length = ((New 2).Set 0 "a" [1] 0).capacity →
      ∃ last, ((New 2).Set 0 "a" [1] 0).ll.getLast? = some last
      ∧ (((New 2).Set 0 "a" [1] 0).Set 1 "b" [2] 0).ll
          = (((New 2).Set 0 "a" [1] 0).nextId,
              { key := "b", value := [2], expiresAt := expiryOf 1 0 })
              :: ((New 2).Set 0 "a" [1] 0).ll.dropLast
      ∧ mapGet ((((New 2).Set 0 "a" [1] 0).Set 1 "b" [2] 0)).items "b"
          = some ((New 2).Set 0 "a" [1] 0).nextId
      ∧ mapGet ((((New 2).Set 0 "a" [1] 0).Set 1 "b" [2] 0)).items last.2.key = none
      ∧ (∀ q ∈ (((New 2).Set 0 "a" [1] 0).Set 1 "b" [2] 0).ll, q.2.key ≠ last.2.key)
      ∧ (((New 2).Set 0 "a" [1] 0).Set 1 "b" [2] 0).ll.length
          = ((New 2).Set 0 "a" [1] 0).ll.length)) :=
  claim3_insert_and_evict ((CacheWF.new 2).set 0 "a" [1] 0) (by decide)

/-- C4: a `Get` on a live (present, unexpired) entry returns its value
(`some`, i.e. found = true) and moves exactly that element to the front of
the recency order; consequently on a capacity-2 cache the sequence
Set A, Set B, Get A, Set C evicts B and not A: afterwards Get B is
not-found while Get A and Get C return their values. -/
theorem claim4_recency_on_read {c : Cache} {now : Nat} {key : String} {i : Nat} {e : entry}
    (hwf : CacheWF c) (hi : mapGet c.items key = some i) (hf : llFind c.ll i = some e)
    (hx : e.isExpired now = false) :
    ((c.Get now key).1 = some e.value
      ∧ (c.Get now key).2.ll = (i, e) :: llRemove c.ll i)
    ∧ (let demo : Cache :=
        ((((New 2).Set 0 "A" [10] 0).Set 0 "B" [11] 0).Get 0 "A").2.Set 0 "C" [12] 0;
      (demo.Get 0 "B").1 = none
      ∧ (demo.Get 0 "A").1 = some [10]
      ∧ (demo.Get 0 "C").1 = some [12]) := by
  constructor
  · rw [Get_live hi hf hx, llMoveToFront_eq hwf.inv.ids_nodup (llFind_mem hf)]
    exact ⟨rfl, rfl⟩
  · exact ⟨by decide, by decide, by decide⟩

/-- Witness for C4: reading "A" from a fresh single-entry cache. -/
theorem claim4_recency_on_read_witness :
    (((((New 2).Set 0 "A" [10] 0).Get 0 "A").1
        = some (entry.mk "A" [10] none).value
      ∧ ((((New 2).Set 0 "A" [10] 0).Get 0 "A").2).ll
        = (0, entry.mk "A" [10] none) :: llRemove ((New 2).Set 0 "A" [10] 0).ll 0)
    ∧ (let demo : Cache :=
        ((((New 2).Set 0 "A" [10] 0).Set 0 "B" [11] 0).Get 0 "A").2.Set 0 "C" [12] 0;
      (demo.Get 0 "B").1 = none
      ∧ (demo.Get 0 "A").1 = some [10]
      ∧ (demo.Get 0 "C").1 = some [12])) :=
  @claim4_recency_on_read ((New 2).Set 0 "A" [10] 0) 0 "A" 0 (entry.mk "A" [10] none)
    ((CacheWF.new 2).set 0 "A" [10] 0) (by decide) (by decide) (by decide)

/-- C5: `Set` stores the absolute expiry `now + ttl` when `ttl > 0` and
"never" (`none`) otherwise; an entry written with `ttl = 0` is never
considered expired at any later instant, survives every background sweep,
and `Get` keeps returning its value. -/
theorem claim5_ttl_computation {c : Cache} {now : Nat} {key : String} {v : List Nat}
    {ttl : Int} (hwf : CacheWF c) :
    (∃ i e, mapGet (c.Set now key v ttl).items key = some i
      ∧ llFind (c.Set now key v ttl).ll i = some e
      ∧ e.key = key ∧ e.value = v
      ∧ e.expiresAt = (if 0 < ttl then some (now + ttl.toNat) else none))
    ∧ (ttl = 0 → ∀ later : Nat,
      (∃ i e, mapGet (c.Set now key v ttl).items key = some i
        ∧ llFind (c.Set now key v ttl).ll i = some e
        ∧ e.isExpired later = false)
      ∧ ((c.Set now key v ttl).Get later key).1 = some v
      ∧ (∃ i e, mapGet ((c.Set now key v ttl).evictExpired later).items key = some i
        ∧ llFind ((c.Set now key v ttl).evictExpired later).ll i = some e
        ∧ e.value = v)) := by
  rcases @Set_stored c now key v ttl hwf with ⟨i, hgi, hfi⟩
  constructor
  · exact ⟨i, { key := key, value := v, expiresAt := expiryOf now ttl },
      hgi, hfi, rfl, rfl, rfl⟩
  · intro httl later
    have hwf2 : CacheWF (c.Set now key v ttl) := hwf.set now key v ttl
    have hxent : entry.isExpired { key := key, value := v, expiresAt := expiryOf now ttl }
        later = false := by
      unfold entry.isExpired expiryOf
      rw [httl]
      rfl
    refine ⟨⟨i, _, hgi, hfi, hxent⟩, ?_, ?_⟩
    · rw [Get_live hgi hfi hxent]
    · have hmem := llFind_mem hfi
      have hinv3 := hwf2.inv.sweep later
      have hmem3 : (i, { key := key, value := v, expiresAt := expiryOf now ttl })
          ∈ ((c.Set now key v ttl).evictExpired later).ll := by
        rw [evictExpired_llEq hwf2.inv.ids_nodup]
        refine List.mem_filter.mpr ⟨hmem, ?_⟩
        rw [hxent]
        rfl
      refine ⟨i, { key := key, value := v, expiresAt := expiryOf now ttl }, ?_, ?_, rfl⟩
      · exact mapGet_of_mem hinv3.items_nodup
          ((hinv3.lookup key i).mpr ⟨_, hmem3, rfl⟩)
      · exact llFind_of_mem hinv3.ids_nodup hmem3

/-- Witness for C5: writing "k" with ttl 0 at time 0 into a fresh cache. -/
theorem claim5_ttl_computation_witness :
    ((∃ i e, mapGet (((New 3).Set 0 "k" [7] 0)).items "k" = some i
      ∧ llFind (((New 3).Set 0 "k" [7] 0)).ll i = some e
      ∧ e.key = "k" ∧ e.value = [7]
      ∧ e.expiresAt = (if (0 : Int) < 0 then some (0 + (0 : Int).toNat) else none))
    ∧ ((0 : Int) = 0 → ∀ later : Nat,
      (∃ i e, mapGet (((New 3).Set 0 "k" [7] 0)).items "k" = some i
        ∧ llFind (((New 3).Set 0 "k" [7] 0)).ll i = some e
        ∧ e.isExpired later = false)
      ∧ ((((New 3).Set 0 "k" [7] 0)).Get later "k").1 = some [7]
      ∧ (∃ i e, mapGet ((((New 3).Set 0 "k" [7] 0)).evictExpired later).items "k" = some i
        ∧ llFind ((((New 3).Set 0 "k" [7] 0)).evictExpired later).ll i = some e
        ∧ e.value = [7]))) :=
  claim5_ttl_computation (CacheWF.new 3)

/-- C7: `Set` on a present key updates the entry in place (same element
identity, same key, new value and expiry) and moves it to the front; the
index and the total entry count are unchanged, every other element
survives, no eviction happens, and a subsequent `Get` returns the new
value. -/
theorem claim7_update_in_place {c : Cache} {now : Nat} {key : String} {v : List Nat}
    {ttl : Int} {i : Nat} {e : entry}
    (hwf : CacheWF c) (hi : mapGet c.items key = some i) (hf : llFind c.ll i = some e) :
    (c.Set now key v ttl).ll
        = (i, { e with value := v, expiresAt := expiryOf now ttl }) :: llRemove c.ll i
    ∧ (c.Set now key v ttl).items = c.items
    ∧ (c.Set now key v ttl).ll.length = c.ll.length
    ∧ (∀ q ∈ c.ll, q.1 ≠ i → q ∈ (c.Set now key v ttl).ll)
    ∧ ((c.Set now key v ttl).Get now key).1 = some v := by
  have he := llFind_mem hf
  have hshape := @Set_present c now key v ttl i e hwf.inv hwf.size_le hi he
  rw [hshape]
  have hlen := length_llRemove hwf.inv.ids_nodup he
  refine ⟨rfl, rfl, ?_, ?_, ?_⟩
  · simp only [List.length_cons]
    omega
  · intro q hq hqi
    exact List.mem_cons_of_mem _ (mem_llRemove.mpr ⟨hq, hqi⟩)
  · have hx : entry.isExpired { e with value := v, expiresAt := expiryOf now ttl } now
        = false := isExpired_expiryOf rfl
    rw [@Get_live { c with
        ll := (i, { e with value := v, expiresAt := expiryOf now ttl }) :: llRemove c.ll i }
      now key i { e with value := v, expiresAt := expiryOf now ttl }
      hi llFind_cons_self hx]

/-- Witness for C7: overwriting "a" (first [1], then [2]) in a fresh cache. -/
theorem claim7_update_in_place_witness :
    ((((New 2).Set 0 "a" [1] 0).Set 1 "a" [2] 0).ll
        = (0, { entry.mk "a" [1] none with value := [2], expiresAt := expiryOf 1 0 })
            :: llRemove ((New 2).Set 0 "a" [1] 0).ll 0
    ∧ (((New 2).Set 0 "a" [1] 0).Set 1 "a" [2] 0).items
        = ((New 2).Set 0 "a" [1] 0).items
    ∧ (((New 2).Set 0 "a" [1] 0).Set 1 "a" [2] 0).ll.length
        = ((New 2).Set 0 "a" [1] 0).ll.length
    ∧ (∀ q ∈ ((New 2).Set 0 "a" [1] 0).ll, q.1 ≠ 0 →
        q ∈ (((New 2).Set 0 "a" [1] 0).Set 1 "a" [2] 0).ll)
    ∧ ((((New 2).Set 0 "a" [1] 0).Set 1 "a" [2] 0).Get 1 "a").1 = some [2]) :=
  @claim7_update_in_place ((New 2).Set 0 "a" [1] 0) 1 "a" [2] 0 0 (entry.mk "a" [1] none)
    ((CacheWF.new 2).set 0 "a" [1] 0) (by decide) (by decide)

/-- C9 (`Delete` modelled from the spec, since `internal/cache/cache.go`
contains no such method): the engine-level `Delete(key)` removes the key
from both the index and the recency order when present and is a no-op
otherwise, while the façade's `server.Delete` always reports
"not implemented". -/
theorem claim9_delete {c : Cache} {key : String} (hwf : CacheWF c) :
    mapGet (c.Delete key).items key = none
    ∧ (∀ q ∈ (c.Delete key).ll, q.2.key ≠ key)
    ∧ (mapGet c.items key = none → c.Delete key = c)
    ∧ (∀ k, serverDelete k = Except.error GrpcCode.unimplemented) := by
  cases hm : mapGet c.items key with
  | none =>
    have hid : c.Delete key = c := by
      unfold Cache.Delete
      rw [hm]
    rw [hid]
    exact ⟨hm, fun q hq => hwf.inv.absent hm q hq, fun _ => rfl, fun _ => rfl⟩
  | some i =>
    rcases hwf.inv.present hm with ⟨e, _, he, hk⟩
    have hshape : c.Delete key
        = { c with ll := llRemove c.ll i, items := mapDelete c.items key } := by
      unfold Cache.Delete
      rw [hm]
    rw [hshape]
    refine ⟨mapGet_mapDelete_self, ?_, ?_, fun _ => rfl⟩
    · intro q hq hqk
      rcases mem_llRemove.mp hq with ⟨hmem, hqi⟩
      have : q = (i, e) := hwf.inv.key_inj hmem he (by rw [hqk, hk])
      exact hqi (congrArg Prod.fst this)
    · intro hnone
      exact Option.noConfusion hnone

/-- Witness for C9: deleting "a" from a one-entry cache. -/
theorem claim9_delete_witness :
    mapGet (((New 2).Set 0 "a" [1] 0).Delete "a").items "a" = none
    ∧ (∀ q ∈ (((New 2).Set 0 "a" [1] 0).Delete "a").ll, q.2.key ≠ "a")
    ∧ (mapGet ((New 2).Set 0 "a" [1] 0).items "a" = none →
        ((New 2).Set 0 "a" [1] 0).Delete "a" = (New 2).Set 0 "a" [1] 0)
    ∧ (∀ k, serverDelete k = Except.error GrpcCode.unimplemented) :=
  claim9_delete ((CacheWF.new 2).set 0 "a" [1] 0)

/-- C10: `Set` performs no expiry check on the existing-key path — called
while an already-expired entry is still physically present, it treats the
key as present, overwrites the expired entry in place, moves it to the
front (reviving it), leaves the index and the entry count unchanged, and an
immediately following `Get` returns the new value as found. -/
theorem claim10_set_revives_expired {c : Cache} {now : Nat} {key : String} {v2 : List Nat}
    {ttl2 : Int} {i : Nat} {e : entry}
    (hwf : CacheWF c) (hi : mapGet c.items key = some i) (hf : llFind c.ll i = some e)
    (hx : e.isExpired now = true) :
    (c.Set now key v2 ttl2).ll
        = (i, { e with value := v2, expiresAt := expiryOf now ttl2 }) :: llRemove c.ll i
    ∧ (c.Set now key v2 ttl2).items = c.items
    ∧ (c.Set now key v2 ttl2).ll.length = c.ll.length
    ∧ ((c.Set now key v2 ttl2).Get now key).1 = some v2 := by
  have he := llFind_mem hf
  have hshape := @Set_present c now key v2 ttl2 i e hwf.inv hwf.size_le hi he
  rw [hshape]
  have hlen := length_llRemove hwf.inv.ids_nodup he
  refine ⟨rfl, rfl, ?_, ?_⟩
  · simp only [List.length_cons]
    omega
  · have hx2 : entry.isExpired { e with value := v2, expiresAt := expiryOf now ttl2 } now
        = false := isExpired_expiryOf rfl
    rw [@Get_live { c with
        ll := (i, { e with value := v2, expiresAt := expiryOf now ttl2 }) :: llRemove c.ll i }
      now key i { e with value := v2, expiresAt := expiryOf now ttl2 }
      hi llFind_cons_self hx2]

/-- Witness for C10: "a" written at time 0 with ttl 5 is expired at time 9,
yet Set at time 9 revives it and Get finds the new value. -/
theorem claim10_set_revives_expired_witness :
    (((New 2).Set 0 "a" [1] 5).Set 9 "a" [2] 0).ll
        = (0, { entry.mk "a" [1] (some 5) with value := [2], expiresAt := expiryOf 9 0 })
            :: llRemove ((New 2).Set 0 "a" [1] 5).ll 0
    ∧ (((New 2).Set 0 "a" [1] 5).Set 9 "a" [2] 0).items
        = ((New 2).Set 0 "a" [1] 5).items
    ∧ (((New 2).Set 0 "a" [1] 5).Set 9 "a" [2] 0).ll.length
        = ((New 2).Set 0 "a" [1] 5).ll.length
    ∧ ((((New 2).Set 0 "a" [1] 5).Set 9 "a" [2] 0).Get 9 "a").1 = some [2] :=
  @claim10_set_revives_expired ((New 2).Set 0 "a" [1] 5) 9 "a" [2] 0 0
    (entry.mk "a" [1] (some 5))
    ((CacheWF.new 2).set 0 "a" [1] 5) (by decide) (by decide) (by decide)
